import Mathlib

/-!
Verification development for the quote-image generator
(`src/generate/helpers.py`, class `QuoteImageGenerator`).

Strings are modelled as `List Char` (ASCII inputs).  PIL font objects are
modelled by a `Font` record of measurement functions (`getbbox(text)[2]` as
`widthOf`, `getbbox(text)[3]` as `heightOf`); randomness of font choice is
modelled by an arbitrary stream `Nat → Font` indexed by the call sequence
number.  Python's float constants `1.3`, `0.4`, `0.9` are modelled exactly
(`1.3` by scaling the height comparison by 10, `int(s*0.4) = 2*s/5`, `int(c*0.9) = 9*c/10`; for the int
conversions the float rounding of CPython agrees with the exact value for all
magnitudes reachable here).  `generate_image`'s rendering/saving side effect is
modelled by a caller-supplied fallible action `QRecord → Except E Unit`;
exceptions are modelled by `Except`.
-/

/-- The six US-ASCII whitespace characters recognised by Python's `str.strip`
and by `textwrap` (`_whitespace = '\t\n\x0b\x0c\r '`); all inputs considered
here are ASCII. -/
def isPySpace (c : Char) : Bool :=
  c = ' ' || c = '\t' || c = '\n' || c = '\r' || c = Char.ofNat 11 || c = Char.ofNat 12

/-- Python `str.strip()` (ASCII whitespace). -/
def trim (l : List Char) : List Char :=
  ((l.dropWhile isPySpace).reverse.dropWhile isPySpace).reverse

/-- Python `content.split("\n")`: keeps empty parts, never returns an empty
list. -/
def splitOnNl : List Char → List (List Char)
  | [] => [[]]
  | c :: rest =>
    if c = '\n' then [] :: splitOnNl rest
    else
      match splitOnNl rest with
      | [] => [[c]]
      | g :: gs => (c :: g) :: gs

/-- Python substring test `pat in s`. -/
def containsSub (pat : List Char) : List Char → Bool
  | [] => pat.isPrefixOf []
  | c :: rest => pat.isPrefixOf (c :: rest) || containsSub pat rest

/-- Python `s.rsplit(pat, 1)` restricted to the case used by the source:
returns the parts before and after the LAST occurrence of `pat`, or `none`
when `pat` does not occur (the source only calls `rsplit` under an
`in`-guard). -/
def rsplitPat (pat : List Char) : List Char → Option (List Char × List Char)
  | [] => if pat.isPrefixOf [] then some ([], []) else none
  | c :: rest =>
    match rsplitPat pat rest with
    | some (b, a) => some (c :: b, a)
    | none =>
      if pat.isPrefixOf (c :: rest) then some ([], (c :: rest).drop pat.length)
      else none

/-- Python `s.endswith(c)` for a single character. -/
def endsWithChar (c : Char) (l : List Char) : Bool := l.getLast? = some c

/-! ## Python `textwrap.wrap` with default options.

Modelled from CPython's `textwrap.py` (`TextWrapper` with `width` as given and
all other options at their defaults: `expand_tabs=True`, `replace_whitespace=
True`, `drop_whitespace=True`, `break_long_words=True`, `break_on_hyphens=
True`, `max_lines=None`, no indents).  Two simplifications, both irrelevant to
every theorem below (which restrict inputs accordingly): tab expansion is
modelled as replacing `'\t'` by one space (theorems use tab-free inputs), and
the `wordsep_re` refinement that additionally splits a non-whitespace chunk
after certain internal hyphens is not modelled (theorems use hyphen-free
inputs; `_handle_long_word`'s hyphen search IS modelled). -/

/-- `TextWrapper._munge_whitespace`: every whitespace character becomes a
space. -/
def munge (l : List Char) : List Char := l.map (fun c => if isPySpace c then ' ' else c)

/-- Python `chunk.strip() == ''`. -/
def isWsChunk (chunk : List Char) : Bool := (trim chunk).isEmpty

/-- `TextWrapper._split` for hyphen-free text: maximal runs of whitespace and
of non-whitespace become the chunks (empty chunks are dropped by the regex
split).  Fuel is the length of the text (each run is nonempty). -/
def splitChunksAux : Nat → List Char → List (List Char)
  | 0, _ => []
  | _, [] => []
  | fuel + 1, c :: rest =>
    ((c :: rest).takeWhile (fun x => isPySpace x == isPySpace c)) ::
      splitChunksAux fuel ((c :: rest).dropWhile (fun x => isPySpace x == isPySpace c))

/-- `TextWrapper._split` (see `splitChunksAux`). -/
def splitChunks (l : List Char) : List (List Char) := splitChunksAux l.length l

/-- The inner `while chunks:` accumulation of `_wrap_chunks`: greedily move
chunks onto the current line while the length budget allows.  Returns
`(cur_line, cur_len, remaining chunks)`. -/
def greedyTake (width : Nat) : Nat → List (List Char) → List (List Char) × Nat × List (List Char)
  | curLen, [] => ([], curLen, [])
  | curLen, c :: rest =>
    if curLen + c.length ≤ width then
      let r := greedyTake width (curLen + c.length) rest
      (c :: r.1, r.2.1, r.2.2)
    else
      ([], curLen, c :: rest)

/-- Python `s.rfind(ch)`: index of the last occurrence. -/
def rfindChar (ch : Char) : List Char → Option Nat
  | [] => none
  | c :: rest =>
    match rfindChar ch rest with
    | some i => some (i + 1)
    | none => if c = ch then some 0 else none

/-- `TextWrapper._handle_long_word` with `break_long_words=True`: number of
characters of the long chunk moved onto the current line (`end`). -/
def longWordEnd (width curLen : Nat) (chunk : List Char) : Nat :=
  let spaceLeft := if width < 1 then 1 else width - curLen
  if chunk.length > spaceLeft then
    match rfindChar '-' (chunk.take spaceLeft) with
    | some h => if 0 < h && (chunk.take h).any (fun c => c != '-') then h + 1 else spaceLeft
    | none => spaceLeft
  else spaceLeft

/-- `_wrap_chunks`: drop of the trailing whitespace chunk of the current line
(`drop_whitespace` handling at line end). -/
def dropTrailingWs (curLine : List (List Char)) : List (List Char) :=
  match curLine.getLast? with
  | some lastChunk => if isWsChunk lastChunk then curLine.dropLast else curLine
  | none => curLine

/-- One iteration of the outer `while chunks:` loop of `_wrap_chunks`
(`max_lines=None`, no indents): possibly drops a leading whitespace chunk
(only once at least one line exists), greedily fills the line, breaks a long
head chunk, drops a trailing whitespace chunk, and emits the line when
nonempty.  Returns the optional emitted line and the remaining chunks. -/
def wrapStep (width : Nat) (hasLines : Bool) (chunks : List (List Char)) :
    Option (List Char) × List (List Char) :=
  let chunks1 := if hasLines && isWsChunk (chunks.headD []) then chunks.tail else chunks
  match chunks1 with
  | [] => (none, [])
  | _ :: _ =>
    let g := greedyTake width 0 chunks1
    let lw :=
      match g.2.2 with
      | r0 :: rs =>
        if r0.length > width then
          let e := longWordEnd width g.2.1 r0
          (g.1 ++ [r0.take e], r0.drop e :: rs)
        else (g.1, r0 :: rs)
      | [] => (g.1, [])
    let curLine := dropTrailingWs lw.1
    (if curLine.isEmpty then none else some curLine.flatten, lw.2)

/-- The outer `while chunks:` loop of `_wrap_chunks`.  Each iteration strictly
decreases the total character count plus chunk count, so the fuel used by
`textwrapWrap` is always sufficient. -/
def wrapChunksAux (width : Nat) : Nat → Bool → List (List Char) → List (List Char)
  | 0, _, _ => []
  | _ + 1, _, [] => []
  | fuel + 1, hl, c :: cs =>
    match wrapStep width hl (c :: cs) with
    | (some line, rest) => line :: wrapChunksAux width fuel true rest
    | (none, rest) => wrapChunksAux width fuel hl rest

/-- Total character count of a chunk list. -/
def sumLen (l : List (List Char)) : Nat := (l.map List.length).sum

/-- Python `textwrap.wrap(text, width=width)` with default options. -/
def textwrapWrap (text : List Char) (width : Nat) : List (List Char) :=
  let chunks := splitChunks (munge text)
  wrapChunksAux width (sumLen chunks + chunks.length + 1) false chunks

/-! ## `QuoteImageGenerator._wrap_text` -/

/-- A PIL font object, reduced to the measurements the source reads from it:
`widthOf t` is `font.getbbox(t)[2]` and `heightOf t` is `font.getbbox(t)[3]`. -/
structure Font where
  widthOf : List Char → Nat
  heightOf : List Char → Nat

def xChar : List Char := ['x']

/-- The `for line in wrapped:` adjustment loop of `_wrap_text` (lines
163-171).  In Python the `for` iterates over the list object `wrapped` held at
loop entry, so reassigning the name `wrapped` inside the body does not change
the iteration: every ORIGINAL line is appended to `final_wrapped`, while
`chars_per_line` keeps shrinking by 10% at each offending line and `wrapped`
is rebound to the latest re-wrap.  Returns `(final_wrapped, wrapped)`. -/
def adjustLoop (font : Font) (maxWidth : Nat) (paragraph : List Char) :
    List (List Char) → Nat → List (List Char) → List (List Char) × List (List Char)
  | [], _, wl => ([], wl)
  | line :: rest, cpl, wl =>
    if font.widthOf line > maxWidth && line.length > 10 then
      let cpl2 := 9 * cpl / 10
      let wl2 := textwrapWrap paragraph cpl2
      let r := adjustLoop font maxWidth paragraph rest cpl2 wl2
      (line :: r.1, r.2)
    else
      let r := adjustLoop font maxWidth paragraph rest cpl wl
      (line :: r.1, r.2)

/-- `QuoteImageGenerator._wrap_text` (lines 135-174): split on newlines; a
blank paragraph contributes one empty line; otherwise estimate
`chars_per_line = max(10, int(max_width / font.getbbox("x")[2]))`, wrap with
`textwrap`, run the adjustment loop, and extend with `final_wrapped` when
nonempty, else with the last value of `wrapped`. -/
def wrapText (font : Font) (maxWidth : Nat) (text : List Char) : List (List Char) :=
  (splitOnNl text).foldl
    (fun lines para =>
      if (trim para).isEmpty then lines ++ [[]]
      else
        let avg := font.widthOf xChar
        let cpl := max 10 (maxWidth / avg)
        let wrapped := textwrapWrap para cpl
        let r := adjustLoop font maxWidth para wrapped cpl wrapped
        lines ++ (if r.1.isEmpty then r.2 else r.1))
    []

/-! ## `QuoteImageGenerator._calculate_font_size` -/

def nullUpper : List Char := "NULL".data
def ayText : List Char := "Ay".data

/-- The repeated source condition `speaker and speaker.strip() and
speaker.upper() != "NULL"`. -/
def hasSpeaker (speaker : List Char) : Bool :=
  !speaker.isEmpty && !(trim speaker).isEmpty && !(speaker.map Char.toUpper == nullUpper)

/-- `max(14, int(quote_font_size * 0.4))` (line 197). -/
def speakerSizeAt (s : Nat) : Nat := max 14 (2 * s / 5)

/-- Lines 203-209: `line_height = quote_font.getbbox("Ay")[3] * 1.3`,
`total_text_height = len(lines) * line_height`, plus
`speaker_font.getbbox(speaker)[3] * 2` when a speaker is present.  The total
is represented scaled by 10 so that the decimal `1.3` is exact over the
integers. -/
def blockHeight10 (qfont sfont : Font) (lines : List (List Char)) (speaker : List Char) : Nat :=
  lines.length * (qfont.heightOf ayText * 13) +
    (if hasSpeaker speaker then 10 * (2 * sfont.heightOf speaker) else 0)

/-- The result of `_calculate_font_size`, recording the size each returned
font was loaded at together with the wrapped lines. -/
structure FitResult where
  quoteSize : Nat
  speakerSize : Nat
  lines : List (List Char)
deriving DecidableEq

/-- The layout accepted at loop iteration `idx` with size `s` (lines
195-213). -/
def tryLayout (qf : Nat → Font) (maxW : Nat) (text : List Char) (idx s : Nat) : FitResult :=
  ⟨s, speakerSizeAt s, wrapText (qf idx) maxW text⟩

/-- The fit test of iteration `idx` at size `s`: `total_text_height <=
max_height` (line 212), with the fonts of that iteration, both sides scaled
by 10 (an equivalent integer inequality). -/
def fitsAt (qf sf : Nat → Font) (text speaker : List Char) (maxW maxH : Nat) (idx s : Nat) :
    Bool :=
  blockHeight10 (qf idx) (sf (speakerSizeAt s)) (wrapText (qf idx) maxW text) speaker
    ≤ 10 * maxH

/-- The fallback of lines 218-223: minimum size 20, speaker size
`max(12, int(20 * 0.4))`, a fresh random font (call index `idx`). -/
def fallbackLayout (qf : Nat → Font) (maxW : Nat) (text : List Char) (idx : Nat) : FitResult :=
  ⟨20, max 12 (2 * 20 / 5), wrapText (qf idx) maxW text⟩

/-- The `while quote_font_size >= min_font_size:` loop (lines 194-216),
iterated over the descending list of sizes; `idx` numbers the
`_get_random_font` calls. -/
def calcLoop (qf sf : Nat → Font) (text speaker : List Char) (maxW maxH : Nat) :
    Nat → List Nat → FitResult
  | idx, [] => fallbackLayout qf maxW text idx
  | idx, s :: rest =>
    if fitsAt qf sf text speaker maxW maxH idx s then tryLayout qf maxW text idx s
    else calcLoop qf sf text speaker maxW maxH (idx + 1) rest

/-- The sizes visited by the loop: 120, 118, ..., 20. -/
def sizesList : List Nat := (List.range 51).map (fun i => 120 - 2 * i)

/-- `QuoteImageGenerator._calculate_font_size` (lines 176-223). -/
def calculateFontSize (qf sf : Nat → Font) (text speaker : List Char) (maxW maxH : Nat) :
    FitResult :=
  calcLoop qf sf text speaker maxW maxH 0 sizesList

/-! ## `QuoteImageGenerator.process_csv` (lines 294-400) -/

/-- The double-quote character. -/
def dq : Char := Char.ofNat 34

/-- The closing pattern `'",'`. -/
def dqPat : List Char := [dq, ',']

/-- One (quote, speaker) record as passed to `generate_image`. -/
structure QRecord where
  text : List Char
  speaker : List Char
deriving DecidableEq

/-- The loop accumulator: `current_quote`, `current_speaker`, `in_quote`. -/
structure PState where
  buffer : List Char
  speaker : List Char
  inQuote : Bool
deriving DecidableEq

def initPState : PState := ⟨[], [], false⟩

/-- `current_quote += "\n" + part if current_quote else part` (lines 354-355,
359-360, 376). -/
def joinBuf (buffer line : List Char) : List Char :=
  if buffer.isEmpty then line else buffer ++ '\n' :: line

/-- The `if in_quote:` block (lines 348-376), applied to the line already
stripped of a leading quote mark.  The `'",' in line` guard is realised by
`rsplitPat` matching: `rsplit` finds the last occurrence exactly when the
pattern occurs. -/
def handleQuoted (st : PState) (line : List Char) : PState × Option QRecord :=
  match rsplitPat dqPat line with
  | some (qp, sp) =>
    (initPState, some ⟨trim (joinBuf st.buffer qp), trim sp⟩)
  | none =>
    if endsWithChar dq line then
      (initPState, some ⟨trim (joinBuf st.buffer line.dropLast), st.speaker⟩)
    else
      (⟨joinBuf st.buffer line, st.speaker, true⟩, none)

/-- Processing of one line of the CSV body (lines 328-389): blank lines flush
a nonempty buffer; a leading quote mark is stripped and sets `in_quote`;
quoted handling as in `handleQuoted`; otherwise a plain line is split at its
last comma and emitted immediately when the trimmed quote text is nonempty. -/
def csvStep (st : PState) (line : List Char) : PState × Option QRecord :=
  if (trim line).isEmpty then
    if !(trim st.buffer).isEmpty then
      (initPState, some ⟨trim st.buffer, st.speaker⟩)
    else (st, none)
  else if line.head? = some dq then
    -- `line.startswith('"')` sets `in_quote = True` and strips the mark, so
    -- the quoted handler always runs on the tail.
    handleQuoted st line.tail
  else if st.inQuote then handleQuoted st line
  else
    match rsplitPat [','] line with
    | some (b, a) =>
      if (trim b).isEmpty then (st, none)
      else (st, some ⟨trim b, trim a⟩)
    | none => (st, none)

/-- The final flush after the loop (lines 391-397). -/
def csvFlush (st : PState) : Option QRecord :=
  if !(trim st.buffer).isEmpty then some ⟨trim st.buffer, st.speaker⟩ else none

/-- The records emitted (in order) by the `process_csv` loop from a given
state. -/
def runLines : PState → List (List Char) → List QRecord
  | st, [] =>
    match csvFlush st with
    | some r => [r]
    | none => []
  | st, l :: ls =>
    match csvStep st l with
    | (st2, some r) => r :: runLines st2 ls
    | (st2, none) => runLines st2 ls

/-- The sequence of records for which `process_csv` generates images: the
first line is always discarded as a header. -/
def parseCSV (content : List Char) : List QRecord :=
  runLines initPState ((splitOnNl content).tail)

/-- The `count` returned by `process_csv`: incremented exactly once per
emitted record. -/
def imageCount (content : List Char) : Nat := (parseCSV content).length

/-- `gen` applied to each record in order, stopping at the first error —
the behaviour of uncaught exceptions in a Python loop. -/
def threadRecords {E : Type} (gen : QRecord → Except E Unit) : List QRecord → Except E Unit
  | [] => Except.ok ()
  | r :: rs =>
    match gen r with
    | Except.error e => Except.error e
    | Except.ok _ => threadRecords gen rs

/-- The `process_csv` loop with the fallible `generate_image`-and-save action
`gen` inlined at each emission point; `process_csv` contains no `try/except`,
so an error from `gen` propagates immediately. -/
def processLines {E : Type} (gen : QRecord → Except E Unit) :
    PState → List (List Char) → Except E (List QRecord)
  | st, [] =>
    match csvFlush st with
    | some r =>
      match gen r with
      | Except.error e => Except.error e
      | Except.ok _ => Except.ok [r]
    | none => Except.ok []
  | st, l :: ls =>
    match csvStep st l with
    | (st2, some r) =>
      match gen r with
      | Except.error e => Except.error e
      | Except.ok _ => (processLines gen st2 ls).map (fun rs => r :: rs)
    | (st2, none) => processLines gen st2 ls

/-- `QuoteImageGenerator.process_csv`: returns the count of generated images
together with the records rendered, or the first uncaught error. -/
def processCSV {E : Type} (gen : QRecord → Except E Unit) (content : List Char) :
    Except E (Nat × List QRecord) :=
  (processLines gen initPState ((splitOnNl content).tail)).map (fun rs => (rs.length, rs))

/-! ## `QuoteImageGenerator._find_available_fonts` (lines 76-97) -/

def fontName0 : List Char := "Agbalumo-Regular".data
def fontName1 : List Char := "Condiment-Regular".data
def fontName2 : List Char := "Courgette-Regular".data
def fontName3 : List Char := "EmilysCandy-Regular".data
def fontName4 : List Char := "FreckleFace-Regular".data
def fontName5 : List Char := "GamjaFlower-Regular".data
def fontName6 : List Char := "IrishGrover-Regular".data
def fontName7 : List Char := "Knewave-Regular".data
def fontName8 : List Char := "Pacifico-Regular".data
def fontName9 : List Char := "ShadowsIntoLight-Regular".data

/-- The class attribute `FONTS` (lines 19-30). -/
def FONTS : List (List Char) :=
  [fontName0, fontName1, fontName2, fontName3, fontName4,
   fontName5, fontName6, fontName7, fontName8, fontName9]

/-- `os.path.join(dir, file)` for a directory without a trailing slash. -/
def joinPath (dir file : List Char) : List Char := dir ++ '/' :: file

def ttfExt : List Char := ".ttf".data
def ttfUpper : List Char := ".TTF".data

/-- The inner `for ext in [".ttf", ".TTF"]: ... break` loop (lines 84-88):
the first existing extension variant for this (directory, identifier) pair,
if any.  The filesystem is modelled by the existence predicate `fsE`
(`os.path.exists`). -/
def resolveFont (fsE : List Char → Bool) (dir name : List Char) : Option (List Char) :=
  let f1 := joinPath dir (name ++ ttfExt)
  if fsE f1 then some f1
  else
    let f2 := joinPath dir (name ++ ttfUpper)
    if fsE f2 then some f2 else none

/-- `QuoteImageGenerator._find_available_fonts`: walk the search directories
in order, and within each existing directory append one file per resolvable
identifier; fall back to `[None]` (the default PIL font) when nothing was
found. -/
def findAvailableFonts (fsE : List Char → Bool) (fontPaths : List (List Char)) :
    List (Option (List Char)) :=
  let available :=
    fontPaths.foldl
      (fun acc dir =>
        if fsE dir then acc ++ FONTS.filterMap (resolveFont fsE dir) else acc)
      []
  if available.isEmpty then [none] else available.map some

/-! ## Concrete instances used by witnesses and counterexamples -/

def aText : List Char := "A".data
def c1content : List Char := "h\nA,X\nB,Y\n".data
def genFailA : QRecord → Except Nat Unit :=
  fun r => if r.text = aText then Except.error 0 else Except.ok ()
def c1rec1 : QRecord := ⟨"A".data, "X".data⟩
def c1rec2 : QRecord := ⟨"B".data, "Y".data⟩

def c2font : Font := ⟨fun l => if l.length ≤ 10 then l.length else 1000, fun _ => 0⟩
def c2text : List Char := "aaaaaaaaaaaa bbbbbbb".data
def c2lineA : List Char := "aaaaaaaaaaaa".data
def c2lineB : List Char := "bbbbbbb".data

def unitWidthFont : Font := ⟨fun l => l.length, fun _ => 0⟩
def c3word : List Char := "aaaaaaaaaaaaaaa".data
def c3line1 : List Char := "aaaaaaaaaa".data
def c3line2 : List Char := "aaaaa".data

def c4content : List Char := "header\n".data ++ [dq, dq] ++ ",Speaker\n".data
def speakerText : List Char := "Speaker".data

def c5content : List Char :=
  "header\n".data ++ [dq] ++ "Line one\nLine two".data ++ [dq] ++ ",Mark Twain\n".data
def c5text : List Char := "Line one\nLine two".data
def c5speaker : List Char := "Mark Twain".data
def c5ctrContent : List Char :=
  "header\n".data ++ [dq] ++ "Line one\n\nLine two".data ++ [dq] ++ ",X\n".data
def c5ctrRec1 : QRecord := ⟨"Line one".data, []⟩
def c5ctrRec2 : QRecord := ⟨"Line two".data ++ [dq], "X".data⟩

def c6content : List Char := "header\nBe yourself, Oscar Wilde\n".data
def c6rec : QRecord := ⟨"Be yourself".data, "Oscar Wilde".data⟩

def hiText : List Char := "Hi".data
def tallFont : Font := ⟨fun l => l.length, fun _ => 1000⟩

def dirA : List Char := "dirA".data
def dirB : List Char := "dirB".data
def c9dirs : List (List Char) := [dirA, dirB]
def c9fs : List Char → Bool :=
  fun p =>
    p == dirA || p == dirB ||
    p == joinPath dirA (fontName8 ++ ttfExt) || p == joinPath dirB (fontName8 ++ ttfExt)

def c10line : List Char := "no commas here".data

def c5part1 : List Char := "Line one".data
def c5part2 : List Char := "Line two".data
def c6line : List Char := "Be yourself, Oscar Wilde".data
def c6b : List Char := "Be yourself".data
def c6a : List Char := " Oscar Wilde".data

/-! ## Helper lemmas -/

theorem dropWhile_eq_self_of_all {p : Char → Bool} {l : List Char}
    (h : ∀ c ∈ l, p c = false) : l.dropWhile p = l := by
  cases l with
  | nil => rfl
  | cons c rest => simp [List.dropWhile_cons, h c (by simp)]

theorem trim_eq_self_of_all {l : List Char} (h : ∀ c ∈ l, isPySpace c = false) :
    trim l = l := by
  unfold trim
  rw [dropWhile_eq_self_of_all h, dropWhile_eq_self_of_all, List.reverse_reverse]
  intro c hc
  exact h c (by simpa using hc)

theorem isPrefixOf_nil_eq_false {pat : List Char} (hp : pat ≠ []) :
    pat.isPrefixOf ([] : List Char) = false := by
  cases pat with
  | nil => exact absurd rfl hp
  | cons c rest => rfl

theorem rsplitPat_isSome (pat : List Char) :
    ∀ s, (rsplitPat pat s).isSome = containsSub pat s := by
  intro s
  induction s with
  | nil =>
    by_cases h : pat.isPrefixOf ([] : List Char) <;> simp [rsplitPat, containsSub, h]
  | cons c rest ih =>
    unfold rsplitPat containsSub
    cases hr : rsplitPat pat rest with
    | some p =>
      have : containsSub pat rest = true := by rw [← ih, hr]; rfl
      simp [this]
    | none =>
      have hc : containsSub pat rest = false := by rw [← ih, hr]; rfl
      by_cases h : pat.isPrefixOf (c :: rest) <;> simp [h, hc]

theorem containsSub_append_left (pat t : List Char) (h : containsSub pat t = true) :
    ∀ u, containsSub pat (u ++ t) = true := by
  intro u
  induction u with
  | nil => simpa using h
  | cons c rest ih => simp [containsSub, ih]

theorem rsplitPat_spec (pat : List Char) (hp : pat ≠ []) :
    ∀ s b a, rsplitPat pat s = some (b, a) →
      s = b ++ pat ++ a ∧ containsSub pat a = false := by
  intro s
  induction s with
  | nil =>
    intro b a h
    rw [rsplitPat, isPrefixOf_nil_eq_false hp] at h
    simp at h
  | cons c rest ih =>
    intro b a h
    rw [rsplitPat] at h
    cases hr : rsplitPat pat rest with
    | some p =>
      rw [hr] at h
      obtain ⟨b', a'⟩ := p
      simp only [Option.some.injEq, Prod.mk.injEq] at h
      obtain ⟨hb, ha⟩ := h
      obtain ⟨hs, hcs⟩ := ih b' a' hr
      subst hb; subst ha
      constructor
      · simp [hs]
      · exact hcs
    | none =>
      rw [hr] at h
      by_cases hpre : pat.isPrefixOf (c :: rest) = true
      · rw [if_pos hpre] at h
        simp only [Option.some.injEq, Prod.mk.injEq] at h
        obtain ⟨hb, ha⟩ := h
        have hprefix : pat <+: (c :: rest) := List.isPrefixOf_iff_prefix.mp hpre
        obtain ⟨t, ht⟩ := hprefix
        have hdrop : (c :: rest).drop pat.length = t := by
          rw [← ht, List.drop_left]
        subst hb
        rw [hdrop] at ha
        subst ha
        constructor
        · simp [← ht]
        · -- no later occurrence: an occurrence in `t` would be one in `rest`
          by_contra hcon
          have hct : containsSub pat t = true := by
            cases hct : containsSub pat t with
            | true => rfl
            | false => exact absurd hct hcon
          obtain ⟨p0, pr⟩ := (List.exists_cons_of_ne_nil hp : ∃ x xs, pat = x :: xs)
          obtain ⟨pr', hpat⟩ := pr
          have hrest : rest = pr' ++ t := by
            rw [hpat] at ht
            exact (by simpa using ht.symm : c = p0 ∧ rest = pr' ++ t).2
          have : containsSub pat rest = true := by
            rw [hrest]; exact containsSub_append_left pat t hct pr'
          have hfalse : containsSub pat rest = false := by
            rw [← rsplitPat_isSome, hr]; rfl
          rw [this] at hfalse
          simp at hfalse
      · rw [if_neg hpre] at h
        simp at h

/-! ## Parser claims -/

/-- C10: a non-blank line in scanning state that does not start with a quote
mark and contains no comma is ignored entirely: no record is emitted, the
parser state (including the quote buffer) is unchanged, and the line's text is
silently lost from the output. -/
theorem c10_commaless_line_ignored (st : PState) (line : List Char)
    (hblank : (trim line).isEmpty = false) (hq : line.head? ≠ some dq)
    (hin : st.inQuote = false) (hnc : containsSub [','] line = false) :
    csvStep st line = (st, none) := by
  have hnone : rsplitPat [','] line = none := by
    have h := rsplitPat_isSome [','] line
    rw [hnc] at h
    exact Option.not_isSome_iff_eq_none.mp (by simp [h])
  simp [csvStep, hblank, hq, hin, hnone]

/-- Witness for C10 at a concrete comma-free line. -/
theorem c10_witness : csvStep initPState c10line = (initPState, none) :=
  c10_commaless_line_ignored initPState c10line (by decide) (by decide) (by decide) (by decide)

/-- C6: a plain (unquoted, non-blank) line in scanning state containing the
delimiter is split once from the right at its LAST comma (the part after it
contains no further comma); the trimmed left part is the quote text, the
trimmed right part the speaker, and a record is emitted immediately exactly
when the quote text is nonempty, with the accumulator state untouched; the
single-line example yields the specified record. -/
theorem c6_plain_line_split (st : PState) (line b a : List Char)
    (hblank : (trim line).isEmpty = false) (hq : line.head? ≠ some dq)
    (hin : st.inQuote = false) (hsplit : rsplitPat [','] line = some (b, a)) :
    (line = b ++ [','] ++ a ∧ containsSub [','] a = false) ∧
    csvStep st line = (st, if (trim b).isEmpty then none else some ⟨trim b, trim a⟩) ∧
    parseCSV c6content = [c6rec] := by
  refine ⟨rsplitPat_spec [','] (by decide) line b a hsplit, ?_, by decide⟩
  simp only [csvStep, hblank, hq, hin, hsplit, Bool.false_eq_true, if_false,
    reduceCtorEq, ite_false]
  split <;> simp_all

/-- Witness for C6 on the specified example line. -/
theorem c6_witness :
    csvStep initPState c6line = (initPState, some c6rec) ∧ parseCSV c6content = [c6rec] := by
  have h := c6_plain_line_split initPState c6line c6b c6a
    (by decide) (by decide) (by decide) (by decide)
  exact ⟨h.2.1.trans (by decide), h.2.2⟩

/-- C4 counterexample: a quoted field that opens and closes with nothing
between the marks (input body `"",Speaker`) is NOT dropped: the running count
is incremented to 1 and an image call is made with empty quote text. -/
theorem c4_counterexample :
    imageCount c4content = 1 ∧ (parseCSV c4content).map QRecord.text = [[]] := by decide

/-- C4 (amended): a record whose quote text is empty after parsing is
silently dropped on the blank-line path, the plain-line path and the
end-of-input flush (no record, count unchanged); the quoted-close path is an
exception — a quoted field that opens and closes with nothing between the
marks IS emitted and counted, with empty text. -/
theorem c4_empty_records (st : PState) (line b a : List Char) :
    ((trim line).isEmpty = true → (trim st.buffer).isEmpty = true →
      csvStep st line = (st, none)) ∧
    ((trim line).isEmpty = false → line.head? ≠ some dq → st.inQuote = false →
      rsplitPat [','] line = some (b, a) → (trim b).isEmpty = true →
      csvStep st line = (st, none)) ∧
    ((trim st.buffer).isEmpty = true → csvFlush st = none) ∧
    (parseCSV c4content = [⟨[], speakerText⟩] ∧ imageCount c4content = 1) := by
  refine ⟨?_, ?_, ?_, by decide⟩
  · intro h1 h2; simp [csvStep, h1, h2]
  · intro h1 h2 h3 h4 h5; simp [csvStep, h1, h2, h3, h4, h5]
  · intro h; simp [csvFlush, h]

/-- Witness for C4 on a whitespace line with empty buffer. -/
theorem c4_witness :
    csvStep initPState [' '] = (initPState, none) ∧ csvFlush initPState = none := by
  have h := c4_empty_records initPState [' '] [] []
  exact ⟨h.1 (by decide) (by decide), h.2.2.1 (by decide)⟩

/-- C5 counterexample: a blank line inside a quoted field is not accumulated
until the closing pattern as claimed — it emits the buffered text early, so
this quoted two-line input produces two records instead of the claimed one. -/
theorem c5_counterexample :
    parseCSV c5ctrContent = [c5ctrRec1, c5ctrRec2] ∧
    (parseCSV c5ctrContent).length ≠ 1 := by decide

/-- C5 (amended): a non-blank line starting with a quote mark is stripped of
the mark and handled in quoted-field state; a non-blank line in quoted state
with no closing pattern is appended newline-joined to the quote buffer; a
line containing `",` closes the field with everything after the LAST `",`
(trimmed) becoming the speaker; a line merely ending in `"` closes it keeping
the accumulated speaker; on close one record is emitted and the state resets
to scanning.  Exception to the claim: a BLANK line while the buffer is
nonempty emits the accumulated record early.  The multi-line example yields
exactly one record with text `Line one\nLine two` and speaker `Mark Twain`. -/
theorem c5_quoted_field (st : PState) (line qp sp : List Char) :
    ((trim line).isEmpty = false → line.head? = some dq →
      csvStep st line = handleQuoted st line.tail) ∧
    ((trim line).isEmpty = false → line.head? ≠ some dq → st.inQuote = true →
      csvStep st line = handleQuoted st line) ∧
    (rsplitPat dqPat line = some (qp, sp) →
      (line = qp ++ dqPat ++ sp ∧ containsSub dqPat sp = false) ∧
      handleQuoted st line = (initPState, some ⟨trim (joinBuf st.buffer qp), trim sp⟩)) ∧
    (rsplitPat dqPat line = none → endsWithChar dq line = true →
      handleQuoted st line =
        (initPState, some ⟨trim (joinBuf st.buffer line.dropLast), st.speaker⟩)) ∧
    (rsplitPat dqPat line = none → endsWithChar dq line = false →
      handleQuoted st line = (⟨joinBuf st.buffer line, st.speaker, true⟩, none)) ∧
    ((trim line).isEmpty = true → (trim st.buffer).isEmpty = false →
      csvStep st line = (initPState, some ⟨trim st.buffer, st.speaker⟩)) ∧
    parseCSV c5content = [⟨c5text, c5speaker⟩] := by
  refine ⟨?_, ?_, ?_, ?_, ?_, ?_, by decide⟩
  · intro h1 h2; simp [csvStep, h1, h2]
  · intro h1 h2 h3; simp [csvStep, h1, h2, h3]
  · intro h
    exact ⟨rsplitPat_spec dqPat (by decide) line qp sp h, by simp [handleQuoted, h]⟩
  · intro h1 h2; simp [handleQuoted, h1, h2]
  · intro h1 h2; simp [handleQuoted, h1, h2]
  · intro h1 h2; simp [csvStep, h1, h2]

/-- Witness for C5: closing a quoted field with `",Mark Twain` after a
buffered first line. -/
theorem c5_witness :
    handleQuoted ⟨c5part1, [], true⟩ (c5part2 ++ dqPat ++ c5speaker) =
      (initPState, some ⟨c5text, c5speaker⟩) := by
  have h := c5_quoted_field ⟨c5part1, [], true⟩ (c5part2 ++ dqPat ++ c5speaker)
    c5part2 c5speaker
  exact ((h.2.2.1 (by decide)).2).trans (by decide)

/-- Correspondence between the monadic loop and the pure record sequence:
the first error of `gen` propagates and aborts the loop. -/
theorem processLines_eq_threadRecords {E : Type} (gen : QRecord → Except E Unit) :
    ∀ (ls : List (List Char)) (st : PState),
      processLines gen st ls =
        (threadRecords gen (runLines st ls)).map (fun _ => runLines st ls) := by
  intro ls
  induction ls with
  | nil =>
    intro st
    cases hf : csvFlush st with
    | none => simp [processLines, runLines, hf, threadRecords, Except.map]
    | some r =>
      cases hg : gen r with
      | error e => simp [processLines, runLines, hf, hg, threadRecords, Except.map]
      | ok u => simp [processLines, runLines, hf, hg, threadRecords, Except.map]
  | cons l ls ih =>
    intro st
    cases hs : csvStep st l with
    | mk st2 o =>
      cases o with
      | none => simp [processLines, runLines, hs, ih st2]
      | some r =>
        cases hg : gen r with
        | error e => simp [processLines, runLines, hs, hg, threadRecords, Except.map]
        | ok u =>
          simp only [processLines, runLines, hs, hg, threadRecords, ih st2]
          cases threadRecords gen (runLines st2 ls) <;> rfl

/-- C1 (amended): `process_csv` contains no try/except — the
generate-and-save action is applied to the parsed records in order and its
FIRST error propagates out of `process_csv`, aborting the batch (later
records are not rendered); only when every record succeeds is the count
returned. -/
theorem c1_error_propagates {E : Type} (gen : QRecord → Except E Unit) (content : List Char) :
    processCSV gen content =
      (threadRecords gen (parseCSV content)).map
        (fun _ => ((parseCSV content).length, parseCSV content)) := by
  unfold processCSV parseCSV
  rw [processLines_eq_threadRecords]
  cases threadRecords gen (runLines initPState ((splitOnNl content).tail)) <;> rfl

/-- C1 counterexample: with a generate action that fails on the first record
of a two-record batch, `process_csv` returns the error — the failure IS
propagated and aborts the batch, contradicting the claimed isolation. -/
theorem c1_counterexample :
    parseCSV c1content = [c1rec1, c1rec2] ∧
    processCSV genFailA c1content = Except.error 0 := ⟨by decide, rfl⟩

/-! ## Layout fitter claims -/

theorem calcLoop_all_fail (qf sf : Nat → Font) (text speaker : List Char) (maxW maxH : Nat) :
    ∀ (l : List Nat) (idx : Nat),
      (∀ k b, l.get? k = some b → fitsAt qf sf text speaker maxW maxH (idx + k) b = false) →
      calcLoop qf sf text speaker maxW maxH idx l = fallbackLayout qf maxW text (idx + l.length) := by
  intro l
  induction l with
  | nil => intro idx _; simp [calcLoop]
  | cons s rest ih =>
    intro idx h
    have h0 : fitsAt qf sf text speaker maxW maxH idx s = false := by
      have := h 0 s rfl
      simpa using this
    have hrec := ih (idx + 1) (fun k b hk => by
      have := h (k + 1) b (by simpa using hk)
      have harith : idx + (k + 1) = idx + 1 + k := by omega
      rwa [harith] at this)
    have harith : idx + 1 + rest.length = idx + (s :: rest).length := by
      simp; omega
    rw [calcLoop, h0]
    simp only [Bool.false_eq_true, if_false]
    rw [hrec, harith]

theorem calcLoop_first_fit (qf sf : Nat → Font) (text speaker : List Char) (maxW maxH : Nat) :
    ∀ (l : List Nat) (idx k b : Nat),
      l.get? k = some b →
      (∀ j c, j < k → l.get? j = some c → fitsAt qf sf text speaker maxW maxH (idx + j) c = false) →
      fitsAt qf sf text speaker maxW maxH (idx + k) b = true →
      calcLoop qf sf text speaker maxW maxH idx l = tryLayout qf maxW text (idx + k) b := by
  intro l
  induction l with
  | nil => intro idx k b hk; simp at hk
  | cons s rest ih =>
    intro idx k b hk hprev hfit
    cases k with
    | zero =>
      simp only [List.get?] at hk
      injection hk with hk
      subst hk
      rw [Nat.add_zero] at hfit
      simp [calcLoop, hfit]
    | succ k2 =>
      have h0 : fitsAt qf sf text speaker maxW maxH idx s = false := by
        have := hprev 0 s (Nat.succ_pos k2) rfl
        simpa using this
      have hrec := ih (idx + 1) k2 b (by simpa using hk)
        (fun j c hj hjg => by
          have := hprev (j + 1) c (by omega) (by simpa using hjg)
          have harith : idx + (j + 1) = idx + 1 + j := by omega
          rwa [harith] at this)
        (by
          have harith : idx + (k2 + 1) = idx + 1 + k2 := by omega
          rwa [harith] at hfit)
      rw [calcLoop, h0]
      simp only [Bool.false_eq_true, if_false]
      rw [hrec]
      congr 1
      omega

theorem sizesList_get? (i : Nat) (h : i < 51) : sizesList.get? i = some (120 - 2 * i) := by
  simp [sizesList, List.get?_eq_getElem?, List.getElem?_map, List.getElem?_range h]

/-- C7: the size search of `_calculate_font_size` visits exactly the 51 sizes
120, 118, ..., 20; the returned quote font size is always in [20, 120]; the
first (largest) size whose measured block height fits `max_height` is
accepted with its layout; and when no size in range fits, the floor-size
(20) layout is returned unconditionally instead of raising. -/
theorem c7_fitter_bounded (qf sf : Nat → Font) (text speaker : List Char) (maxW maxH : Nat) :
    sizesList.length = 51 ∧
    (20 ≤ (calculateFontSize qf sf text speaker maxW maxH).quoteSize ∧
      (calculateFontSize qf sf text speaker maxW maxH).quoteSize ≤ 120) ∧
    (∀ i, i < 51 →
      (∀ j, j < i → fitsAt qf sf text speaker maxW maxH j (120 - 2 * j) = false) →
      fitsAt qf sf text speaker maxW maxH i (120 - 2 * i) = true →
      calculateFontSize qf sf text speaker maxW maxH = tryLayout qf maxW text i (120 - 2 * i)) ∧
    ((∀ i, i < 51 → fitsAt qf sf text speaker maxW maxH i (120 - 2 * i) = false) →
      calculateFontSize qf sf text speaker maxW maxH = fallbackLayout qf maxW text 51) := by
  have hfirst : ∀ i, i < 51 →
      (∀ j, j < i → fitsAt qf sf text speaker maxW maxH j (120 - 2 * j) = false) →
      fitsAt qf sf text speaker maxW maxH i (120 - 2 * i) = true →
      calculateFontSize qf sf text speaker maxW maxH = tryLayout qf maxW text i (120 - 2 * i) := by
    intro i hi hprev hfit
    have h := calcLoop_first_fit qf sf text speaker maxW maxH sizesList 0 i (120 - 2 * i)
      (sizesList_get? i hi)
      (fun j c hj hjg => by
        have hj51 : j < 51 := Nat.lt_trans hj hi
        rw [sizesList_get? j hj51] at hjg
        injection hjg with hjg
        subst hjg
        simpa using hprev j hj)
      (by simpa using hfit)
    simpa [calculateFontSize] using h
  have hnone : (∀ i, i < 51 → fitsAt qf sf text speaker maxW maxH i (120 - 2 * i) = false) →
      calculateFontSize qf sf text speaker maxW maxH = fallbackLayout qf maxW text 51 := by
    intro hall
    have h := calcLoop_all_fail qf sf text speaker maxW maxH sizesList 0
      (fun k b hk => by
        have hk51 : k < 51 := by
          by_contra hge
          push_neg at hge
          rw [List.get?_eq_none.mpr (by simpa [sizesList] using hge)] at hk
          exact Option.noConfusion hk
        rw [sizesList_get? k hk51] at hk
        injection hk with hk
        subst hk
        simpa using hall k hk51)
    simpa [calculateFontSize, sizesList] using h
  refine ⟨by simp [sizesList], ?_, hfirst, hnone⟩
  by_cases hall : ∀ i, i < 51 → fitsAt qf sf text speaker maxW maxH i (120 - 2 * i) = false
  · rw [hnone hall]
    simp [fallbackLayout]
  · push_neg at hall
    have hex : ∃ i, i < 51 ∧ fitsAt qf sf text speaker maxW maxH i (120 - 2 * i) = true := by
      obtain ⟨i, hi, hne⟩ := hall
      exact ⟨i, hi, by simpa using hne⟩
    classical
    let k := Nat.find hex
    have hk := Nat.find_spec hex
    have hmin : ∀ j, j < k → fitsAt qf sf text speaker maxW maxH j (120 - 2 * j) = false := by
      intro j hj
      have := Nat.find_min hex hj
      have hj51 : j < 51 := Nat.lt_trans hj hk.1
      by_contra hne
      exact this ⟨hj51, by simpa using hne⟩
    rw [hfirst k hk.1 hmin hk.2]
    simp only [tryLayout]
    constructor
    · omega
    · omega

/-- Witness for C7: with zero-height fonts everything fits, so the very first
size (120) is accepted. -/
theorem c7_witness :
    calculateFontSize (fun _ => unitWidthFont) (fun _ => unitWidthFont) hiText [] 100 50 =
      tryLayout (fun _ => unitWidthFont) 100 hiText 0 (120 - 2 * 0) :=
  (c7_fitter_bounded (fun _ => unitWidthFont) (fun _ => unitWidthFont) hiText [] 100 50).2.2.1
    0 (by omega) (fun j hj => absurd hj (Nat.not_lt_zero j)) (by decide)

/-- C8 counterexample: with fonts too tall to ever fit, the fallback path
runs and returns speaker size 12 = max(12, int(20*0.4)), not
max(14, floor(0.4*20)) = 14 as claimed. -/
theorem c8_counterexample :
    (calculateFontSize (fun _ => tallFont) (fun _ => tallFont) hiText [] 100 10).speakerSize
        = 12 ∧
    speakerSizeAt
        (calculateFontSize (fun _ => tallFont) (fun _ => tallFont) hiText [] 100 10).quoteSize
        = 14 ∧
    (calculateFontSize (fun _ => tallFont) (fun _ => tallFont) hiText [] 100 10).speakerSize
      ≠ speakerSizeAt
        (calculateFontSize (fun _ => tallFont) (fun _ => tallFont) hiText [] 100 10).quoteSize := by
  decide

/-- C8 (amended): whenever the fitter accepts a size s inside the descending
loop, the speaker font size is max(14, floor(s * 0.4)); but on the
minimum-size fallback (no size fits) it is max(12, floor(20 * 0.4)) = 12
rather than the claimed max(14, floor(20 * 0.4)) = 14. -/
theorem c8_speaker_size (qf sf : Nat → Font) (text speaker : List Char) (maxW maxH : Nat) :
    (∀ i, i < 51 →
      (∀ j, j < i → fitsAt qf sf text speaker maxW maxH j (120 - 2 * j) = false) →
      fitsAt qf sf text speaker maxW maxH i (120 - 2 * i) = true →
      (calculateFontSize qf sf text speaker maxW maxH).speakerSize
        = max 14 (2 * (120 - 2 * i) / 5)) ∧
    ((∀ i, i < 51 → fitsAt qf sf text speaker maxW maxH i (120 - 2 * i) = false) →
      (calculateFontSize qf sf text speaker maxW maxH).speakerSize = max 12 (2 * 20 / 5)) ∧
    max 12 (2 * 20 / 5) = 12 ∧ max 14 (2 * 20 / 5) = 14 := by
  refine ⟨?_, ?_, by decide, by decide⟩
  · intro i hi hprev hfit
    have h := calcLoop_first_fit qf sf text speaker maxW maxH sizesList 0 i (120 - 2 * i)
      (sizesList_get? i hi)
      (fun j c hj hjg => by
        have hj51 : j < 51 := Nat.lt_trans hj hi
        rw [sizesList_get? j hj51] at hjg
        injection hjg with hjg
        subst hjg
        simpa using hprev j hj)
      (by simpa using hfit)
    have : calculateFontSize qf sf text speaker maxW maxH
        = tryLayout qf maxW text (0 + i) (120 - 2 * i) := by
      simpa [calculateFontSize] using h
    rw [this]
    rfl
  · intro hall
    have h := calcLoop_all_fail qf sf text speaker maxW maxH sizesList 0
      (fun k b hk => by
        have hk51 : k < 51 := by
          by_contra hge
          push_neg at hge
          rw [List.get?_eq_none.mpr (by simpa [sizesList] using hge)] at hk
          exact Option.noConfusion hk
        rw [sizesList_get? k hk51] at hk
        injection hk with hk
        subst hk
        simpa using hall k hk51)
    have : calculateFontSize qf sf text speaker maxW maxH = fallbackLayout qf maxW text 51 := by
      simpa [calculateFontSize, sizesList] using h
    rw [this]
    rfl

/-- Witness for C8: first-fit at size 120 gives speaker size
max(14, floor(0.4*120)) = 48. -/
theorem c8_witness :
    (calculateFontSize (fun _ => unitWidthFont) (fun _ => unitWidthFont) hiText [] 100 50).speakerSize
      = max 14 (2 * (120 - 2 * 0) / 5) :=
  (c8_speaker_size (fun _ => unitWidthFont) (fun _ => unitWidthFont) hiText [] 100 50).1
    0 (by omega) (fun j hj => absurd hj (Nat.not_lt_zero j)) (by decide)

/-! ## Font resolution claims -/

theorem foldl_if_append_eq_bind (fsE : List Char → Bool) (g : List Char → List (List Char)) :
    ∀ (l : List (List Char)) (init : List (List Char)),
      l.foldl (fun acc dir => if fsE dir then acc ++ g dir else acc) init
        = init ++ (l.filter fsE).flatMap g := by
  intro l
  induction l with
  | nil => intro init; simp
  | cons d rest ih =>
    intro init
    by_cases h : fsE d
    · simp [List.foldl_cons, h, ih, List.filter_cons]
    · simp [List.foldl_cons, h, ih, List.filter_cons]

theorem countP_filterMap_eq {α β : Type} (f : α → Option β) (p : β → Bool) :
    ∀ l : List α, (l.filterMap f).countP p = l.countP (fun a => ((f a).map p).getD false) := by
  intro l
  induction l with
  | nil => rfl
  | cons a rest ih =>
    cases h : f a with
    | none => simp [List.filterMap_cons, h, List.countP_cons, ih]
    | some b =>
      by_cases hp : p b
      · simp [List.filterMap_cons, h, List.countP_cons, ih, hp]
      · simp [List.filterMap_cons, h, List.countP_cons, ih, hp]

theorem countP_beq_le_one_of_nodup {l : List (List Char)} (h : l.Nodup) (name : List Char) :
    l.countP (fun n => n == name) ≤ 1 := by
  induction l with
  | nil => simp
  | cons a rest ih =>
    rw [List.countP_cons]
    by_cases hb : a = name
    · subst hb
      have hz : rest.countP (fun n => n == a) = 0 := by
        rw [List.countP_eq_zero]
        intro x hx
        simp only [beq_iff_eq]
        intro hxa
        subst hxa
        exact absurd hx (List.nodup_cons.mp h).1
      simp [hz]
    · have hf : (a == name) = false := by simp [hb]
      rw [hf]
      simpa using ih (List.nodup_cons.mp h).2

theorem resolveFont_target (fsE : List Char → Bool) (d name n p : List Char)
    (h : resolveFont fsE d n = some p)
    (hp : (p == joinPath d (name ++ ttfExt) || p == joinPath d (name ++ ttfUpper)) = true) :
    n = name := by
  have hext : ∀ e1 e2 : List Char, e1.length = e2.length →
      joinPath d (n ++ e1) = joinPath d (name ++ e2) → n = name ∧ e1 = e2 := by
    intro e1 e2 hlen heq
    have h2 : n ++ e1 = name ++ e2 := by
      have := List.append_cancel_left (heq : d ++ '/' :: (n ++ e1) = d ++ '/' :: (name ++ e2))
      simpa using this
    exact List.append_inj' h2 hlen
  have hcases : p = joinPath d (n ++ ttfExt) ∨ p = joinPath d (n ++ ttfUpper) := by
    unfold resolveFont at h
    by_cases h1 : fsE (joinPath d (n ++ ttfExt))
    · simp [h1] at h
      exact Or.inl h.symm
    · by_cases h2 : fsE (joinPath d (n ++ ttfUpper))
      · simp [h1, h2] at h
        exact Or.inr h.symm
      · simp [h1, h2] at h
  have hpq : p = joinPath d (name ++ ttfExt) ∨ p = joinPath d (name ++ ttfUpper) := by
    rcases Bool.or_eq_true_iff.mp hp with h1 | h1
    · exact Or.inl (by simpa using h1)
    · exact Or.inr (by simpa using h1)
  rcases hcases with hc | hc <;> rcases hpq with hq | hq
  · exact (hext ttfExt ttfExt rfl (hc ▸ hq : joinPath d (n ++ ttfExt) = _)).1
  · have := hext ttfExt ttfUpper (by decide) (hc ▸ hq : joinPath d (n ++ ttfExt) = _)
    exact absurd this.2 (by decide)
  · have := hext ttfUpper ttfExt (by decide) (hc ▸ hq : joinPath d (n ++ ttfUpper) = _)
    exact absurd this.2 (by decide)
  · exact (hext ttfUpper ttfUpper rfl (hc ▸ hq : joinPath d (n ++ ttfUpper) = _)).1

/-- C9 counterexample: with `Pacifico-Regular.ttf` present in two search
directories, the identifier is resolved once per directory — it appears TWICE
in the available set, contradicting the claimed at-most-one-per-identifier
first-match-wins behaviour. -/
theorem c9_counterexample :
    findAvailableFonts c9fs c9dirs =
      [some (joinPath dirA (fontName8 ++ ttfExt)), some (joinPath dirB (fontName8 ++ ttfExt))] ∧
    (findAvailableFonts c9fs c9dirs).countP
        (fun o => ((o.map (fun p => containsSub fontName8 p)).getD false)) = 2 := by
  constructor
  · rfl
  · rfl

/-- C9 (amended): the available set is the in-order concatenation, over the
existing search directories, of one resolved file per identifier found in
that directory (`.ttf` preferred over `.TTF`); within a single directory each
identifier contributes at most one file, but an identifier present in several
directories is resolved once per such directory, so it can appear several
times in the available set (no cross-directory first-match dedup); if nothing
resolves, the set is the single default-font sentinel. -/
theorem c9_per_directory_resolution (fsE : List Char → Bool) (dirs : List (List Char)) :
    (findAvailableFonts fsE dirs =
      (if ((dirs.filter fsE).flatMap (fun d => FONTS.filterMap (resolveFont fsE d))).isEmpty
        then [none]
        else ((dirs.filter fsE).flatMap (fun d => FONTS.filterMap (resolveFont fsE d))).map
          some)) ∧
    (∀ d name : List Char,
      (FONTS.filterMap (resolveFont fsE d)).countP
          (fun p => p == joinPath d (name ++ ttfExt) || p == joinPath d (name ++ ttfUpper))
        ≤ 1) := by
  constructor
  · unfold findAvailableFonts
    rw [foldl_if_append_eq_bind fsE (fun d => FONTS.filterMap (resolveFont fsE d)) dirs []]
    rfl
  · intro d name
    rw [countP_filterMap_eq]
    have hmono : FONTS.countP
        (fun n => (((resolveFont fsE d n).map
          (fun p => p == joinPath d (name ++ ttfExt) || p == joinPath d (name ++ ttfUpper))).getD
            false))
        ≤ FONTS.countP (fun n => n == name) := by
      apply List.countP_mono_left
      intro n _ hn
      cases h : resolveFont fsE d n with
      | none => rw [h] at hn; simp at hn
      | some p =>
        rw [h] at hn
        simp only [Option.map_some', Option.getD_some] at hn
        have := resolveFont_target fsE d name n p h hn
        simpa using this
    refine le_trans hmono ?_
    exact countP_beq_le_one_of_nodup (by decide) name

/-! ## Text wrapper claims -/

/-- C2 (code bug): at a paragraph whose single produced line measures wider
than `max_width` and is longer than 10 characters, the loop shrinks the
budget by 10% and re-wraps — but the re-wrapped lines are discarded: the
`for` loop iterates over the ORIGINAL list and appends every original line
to `final_wrapped`, so `_wrap_text` returns the original wrap (with its
overwide line), not the re-wrap; the re-wrap (budget 18 = int(20*0.9)) would
have produced two fitting lines. -/
theorem c2_rewrap_discarded :
    wrapText c2font 20 c2text = [c2text] ∧
    c2font.widthOf c2text > 20 ∧ c2text.length > 10 ∧
    max 10 (20 / c2font.widthOf xChar) = 20 ∧
    textwrapWrap c2text (9 * 20 / 10) = [c2lineA, c2lineB] ∧
    ¬([c2lineA, c2lineB] = [c2text]) := by decide

/-- C3 counterexample: with a one-pixel-per-character font and max width 10
the budget is 10; a single 15-character word is NOT emitted as its own line —
`textwrap`'s default `break_long_words` splits it at a character boundary. -/
theorem c3_counterexample :
    max 10 (10 / unitWidthFont.widthOf xChar) = 10 ∧
    c3word.length > 10 ∧
    wrapText unitWidthFont 10 c3word = [c3line1, c3line2] ∧
    wrapText unitWidthFont 10 c3word ≠ [c3word] := by decide

theorem takeWhile_eq_self_of_all {p : Char → Bool} {l : List Char}
    (h : ∀ c ∈ l, p c = true) : l.takeWhile p = l := by
  induction l with
  | nil => rfl
  | cons c rest ih =>
    rw [List.takeWhile_cons, if_pos (h c (by simp))]
    rw [ih (fun x hx => h x (by simp [hx]))]

theorem dropWhile_eq_nil_of_all {p : Char → Bool} {l : List Char}
    (h : ∀ c ∈ l, p c = true) : l.dropWhile p = [] := by
  induction l with
  | nil => rfl
  | cons c rest ih =>
    rw [List.dropWhile_cons, if_pos (h c (by simp))]
    exact ih (fun x hx => h x (by simp [hx]))

theorem splitOnNl_eq_single {w : List Char} (h : ∀ c ∈ w, c ≠ '\n') : splitOnNl w = [w] := by
  induction w with
  | nil => rfl
  | cons c rest ih =>
    rw [splitOnNl, if_neg (h c (by simp))]
    rw [ih (fun x hx => h x (by simp [hx]))]

theorem munge_eq_self {w : List Char} (h : ∀ c ∈ w, isPySpace c = false) : munge w = w := by
  unfold munge
  have hcong : ∀ c ∈ w, (if isPySpace c then ' ' else c) = id c := by
    intro c hc
    simp [h c hc]
  rw [List.map_congr_left hcong, List.map_id]

theorem splitChunksAux_nil (fuel : Nat) : splitChunksAux fuel [] = [] := by
  cases fuel <;> rfl

theorem splitChunks_single {w : List Char} (hne : w ≠ [])
    (h : ∀ c ∈ w, isPySpace c = false) : splitChunks w = [w] := by
  cases w with
  | nil => exact absurd rfl hne
  | cons c rest =>
    have hc : isPySpace c = false := h c (by simp)
    have hall : ∀ x ∈ c :: rest, (fun x => isPySpace x == isPySpace c) x = true := by
      intro x hx
      simp [h x hx, hc]
    rw [splitChunks, List.length_cons, splitChunksAux,
      takeWhile_eq_self_of_all hall, dropWhile_eq_nil_of_all hall, splitChunksAux_nil]

theorem isWsChunk_false_of {w : List Char} (hne : w ≠ [])
    (h : ∀ c ∈ w, isPySpace c = false) : isWsChunk w = false := by
  unfold isWsChunk
  rw [trim_eq_self_of_all h]
  simpa using hne

theorem rfindChar_eq_none {ch : Char} {l : List Char} (h : ∀ c ∈ l, c ≠ ch) :
    rfindChar ch l = none := by
  induction l with
  | nil => rfl
  | cons c rest ih =>
    rw [rfindChar, ih (fun x hx => h x (by simp [hx])), if_neg (h c (by simp))]

theorem wrapStep_single_small {width : Nat} {w : List Char} (hl : Bool)
    (hne : w ≠ []) (hns : ∀ c ∈ w, isPySpace c = false) (hlen : w.length ≤ width) :
    wrapStep width hl [w] = (some w, []) := by
  have hws := isWsChunk_false_of hne hns
  simp [wrapStep, List.headD, hws, greedyTake, hlen, dropTrailingWs, hne]

theorem wrapStep_single_big {width : Nat} {w : List Char} (hl : Bool) (hwpos : 1 ≤ width)
    (hns : ∀ c ∈ w, isPySpace c = false) (hnh : ∀ c ∈ w, c ≠ '-') (hlen : width < w.length) :
    wrapStep width hl [w] = (some (w.take width), [w.drop width]) := by
  have hne : w ≠ [] := by
    intro h0
    rw [h0] at hlen
    simp at hlen
  have hws := isWsChunk_false_of hne hns
  have hlw : longWordEnd width 0 w = width := by
    unfold longWordEnd
    have h1 : ¬(width < 1) := by omega
    rw [if_neg h1, Nat.sub_zero, if_pos hlen,
      rfindChar_eq_none (fun c hc => hnh c (List.take_subset width w hc))]
  have htne : w.take width ≠ [] := by
    intro h0
    have hlt := congrArg List.length h0
    rw [List.length_take] at hlt
    simp only [List.length_nil] at hlt
    omega
  have htws : isWsChunk (w.take width) = false :=
    isWsChunk_false_of htne (fun c hc => hns c (List.take_subset width w hc))
  have hnotle : ¬(w.length ≤ width) := by omega
  simp [wrapStep, List.headD, hws, greedyTake, hnotle, hlen, hlw, dropTrailingWs,
    htws, htne]

theorem wrapChunksAux_nil (width : Nat) : ∀ fuel hl, wrapChunksAux width fuel hl [] = [] := by
  intro fuel hl
  cases fuel <;> rfl

theorem wrapAux_single (width : Nat) (hwpos : 1 ≤ width) :
    ∀ (fuel : Nat) (w : List Char) (hl : Bool), w ≠ [] →
      (∀ c ∈ w, isPySpace c = false) → (∀ c ∈ w, c ≠ '-') → w.length ≤ fuel →
      (wrapChunksAux width fuel hl [w]).flatten = w ∧
      ∀ l ∈ wrapChunksAux width fuel hl [w], l ≠ [] ∧ l.length ≤ width := by
  intro fuel
  induction fuel with
  | zero =>
    intro w hl hne _ _ hlen
    exact absurd (List.length_eq_zero.mp (Nat.le_zero.mp hlen)) hne
  | succ fuel ih =>
    intro w hl hne hns hnh hlen
    by_cases hsmall : w.length ≤ width
    · have hstep := @wrapStep_single_small width w hl hne hns hsmall
      simp only [wrapChunksAux, hstep]
      constructor
      · simp [wrapChunksAux_nil]
      · intro l hlm
        simp only [wrapChunksAux_nil, List.mem_singleton] at hlm
        subst hlm
        exact ⟨hne, hsmall⟩
    · push_neg at hsmall
      have hstep := @wrapStep_single_big width w hl hwpos hns hnh hsmall
      simp only [wrapChunksAux, hstep]
      have hdne : w.drop width ≠ [] := by
        intro h0
        have hlt := congrArg List.length h0
        rw [List.length_drop] at hlt
        simp only [List.length_nil] at hlt
        omega
      have ihd := ih (w.drop width) true hdne
        (fun c hc => hns c (List.drop_subset width w hc))
        (fun c hc => hnh c (List.drop_subset width w hc))
        (by rw [List.length_drop]; omega)
      have htne : w.take width ≠ [] := by
        intro h0
        have hlt := congrArg List.length h0
        rw [List.length_take] at hlt
        simp only [List.length_nil] at hlt
        omega
      constructor
      · rw [List.flatten_cons, ihd.1, List.take_append_drop]
      · intro l hlm
        rcases List.mem_cons.mp hlm with h0 | h0
        · subst h0
          refine ⟨htne, ?_⟩
          rw [List.length_take]
          omega
        · exact ihd.2 l h0

theorem adjustLoop_fst (font : Font) (maxW : Nat) (para : List Char) :
    ∀ (ls : List (List Char)) (cpl : Nat) (wl : List (List Char)),
      (adjustLoop font maxW para ls cpl wl).1 = ls := by
  intro ls
  induction ls with
  | nil => intro cpl wl; rfl
  | cons line rest ih =>
    intro cpl wl
    unfold adjustLoop
    split <;> simp [ih]

theorem textwrapWrap_single {w : List Char} (width : Nat) (hne : w ≠ [])
    (hns : ∀ c ∈ w, isPySpace c = false) :
    textwrapWrap w width = wrapChunksAux width (w.length + 2) false [w] := by
  have h1 : splitChunks (munge w) = [w] := by
    rw [munge_eq_self hns, splitChunks_single hne hns]
  show wrapChunksAux width
      (sumLen (splitChunks (munge w)) + (splitChunks (munge w)).length + 1) false
      (splitChunks (munge w))
    = wrapChunksAux width (w.length + 2) false [w]
  rw [h1]
  rfl

/-- C3 (amended): a single word longer than the characters-per-line budget is
NOT emitted as its own output line — `textwrap`'s default `break_long_words`
splits it at character boundaries into two or more lines, each at most the
budget long; it is never truncated: the concatenation of the returned lines
is exactly the word, every character preserved in order. -/
theorem c3_long_word_split (font : Font) (maxW : Nat) (w : List Char)
    (hne : w ≠ []) (hns : ∀ c ∈ w, isPySpace c = false) (hnh : ∀ c ∈ w, c ≠ '-')
    (hlong : max 10 (maxW / font.widthOf xChar) < w.length) :
    (wrapText font maxW w).flatten = w ∧
    (∀ l ∈ wrapText font maxW w, l ≠ [] ∧
      l.length ≤ max 10 (maxW / font.widthOf xChar)) ∧
    2 ≤ (wrapText font maxW w).length := by
  have hwpos : 1 ≤ max 10 (maxW / font.widthOf xChar) :=
    le_trans (by norm_num) (le_max_left 10 (maxW / font.widthOf xChar))
  have hmain := wrapAux_single (max 10 (maxW / font.widthOf xChar)) hwpos
    (w.length + 2) w false hne hns hnh (by omega)
  have htw := @textwrapWrap_single w (max 10 (maxW / font.widthOf xChar)) hne hns
  have htwne : textwrapWrap w (max 10 (maxW / font.widthOf xChar)) ≠ [] := by
    rw [htw]
    intro h0
    rw [h0] at hmain
    simp at hmain
    exact hne hmain
  have hwt : wrapText font maxW w = textwrapWrap w (max 10 (maxW / font.widthOf xChar)) := by
    unfold wrapText
    rw [splitOnNl_eq_single (fun c hc heq => by
      subst heq
      exact absurd (hns _ hc) (by decide))]
    have hif : (trim w).isEmpty = false := by
      rw [trim_eq_self_of_all hns]
      simpa using hne
    simp only [List.foldl_cons, List.foldl_nil, hif, Bool.false_eq_true, if_false,
      adjustLoop_fst, List.nil_append]
    rw [if_neg (by simpa using htwne)]
  refine ⟨?_, ?_, ?_⟩
  · rw [hwt, htw]
    exact hmain.1
  · rw [hwt, htw]
    exact hmain.2
  · rw [hwt, htw]
    cases hL : wrapChunksAux (max 10 (maxW / font.widthOf xChar)) (w.length + 2) false [w] with
    | nil =>
      rw [hL] at hmain
      simp at hmain
      exact absurd hmain hne
    | cons l rest =>
      cases rest with
      | nil =>
        rw [hL] at hmain
        have h1 : l = w := by simpa using hmain.1
        have h2 := (hmain.2 l (by simp)).2
        rw [h1] at h2
        omega
      | cons l2 rest2 => simp

/-- Witness for C3 (amended): a 15-character word against budget 12 is split
without losing characters. -/
theorem c3_witness :
    (wrapText unitWidthFont 12 c3word).flatten = c3word ∧
    2 ≤ (wrapText unitWidthFont 12 c3word).length := by
  have h := c3_long_word_split unitWidthFont 12 c3word (by decide) (by decide) (by decide)
    (by decide)
  exact ⟨h.1, h.2.2⟩
